import Mathlib

set_option maxRecDepth 4096

/-
Verification of the Osher-solution core of the nonconvex scalar Riemann
solver (notebook Nonconvex_scalar: functions osher_solution and
nonconvex_solutions).  Real arithmetic is modelled exactly over ℚ; numpy
arrays are modelled as lists of rationals.
-/

namespace NonconvexScalar

/-- Model of numpy.linspace(a, b, n): n equally spaced points from a to b
inclusive (exact rational arithmetic; for n = 1 the single point is a). -/
def linspace (a b : ℚ) (n : ℕ) : List ℚ :=
  (List.range n).map (fun i : ℕ => a + (i : ℚ) * (b - a) / ((n : ℚ) - 1))

/-- Minimum entry of a list (0 for the empty list, which never arises here). -/
def listMin : List ℚ → ℚ
  | [] => 0
  | [x] => x
  | x :: y :: t => min x (listMin (y :: t))

/-- Maximum entry of a list (0 for the empty list, which never arises here). -/
def listMax : List ℚ → ℚ
  | [] => 0
  | [x] => x
  | x :: y :: t => max x (listMax (y :: t))

/-- Model of numpy.argmin: index of the first occurrence of the minimum. -/
def argmin : List ℚ → ℕ
  | [] => 0
  | [_] => 0
  | x :: y :: t => if x ≤ listMin (y :: t) then 0 else argmin (y :: t) + 1

/-- Model of numpy.argmax: index of the first occurrence of the maximum. -/
def argmax : List ℚ → ℕ
  | [] => 0
  | [_] => 0
  | x :: y :: t => if listMax (y :: t) ≤ x then 0 else argmax (y :: t) + 1

theorem listMin_le : ∀ {l : List ℚ}, ∀ x ∈ l, listMin l ≤ x := by
  intro l
  induction l with
  | nil => intro x hx; cases hx
  | cons a t ih =>
    intro x hx
    cases t with
    | nil =>
      rw [List.mem_singleton] at hx
      subst hx; simp [listMin]
    | cons b t2 =>
      rw [listMin]
      rcases List.mem_cons.mp hx with h | h
      · subst h; exact min_le_left _ _
      · exact le_trans (min_le_right _ _) (ih x h)

theorem le_listMax : ∀ {l : List ℚ}, ∀ x ∈ l, x ≤ listMax l := by
  intro l
  induction l with
  | nil => intro x hx; cases hx
  | cons a t ih =>
    intro x hx
    cases t with
    | nil =>
      rw [List.mem_singleton] at hx
      subst hx; simp [listMax]
    | cons b t2 =>
      rw [listMax]
      rcases List.mem_cons.mp hx with h | h
      · subst h; exact le_max_left _ _
      · exact le_trans (ih x h) (le_max_right _ _)

theorem argmin_lt_length : ∀ {l : List ℚ}, l ≠ [] → argmin l < l.length := by
  intro l
  induction l with
  | nil => intro h; exact absurd rfl h
  | cons a t ih =>
    intro _
    cases t with
    | nil => simp [argmin]
    | cons b t2 =>
      rw [argmin]
      by_cases h : a ≤ listMin (b :: t2)
      · simp [h]
      · simp only [if_neg h, List.length_cons]
        exact Nat.succ_lt_succ (ih (by simp))

theorem argmax_lt_length : ∀ {l : List ℚ}, l ≠ [] → argmax l < l.length := by
  intro l
  induction l with
  | nil => intro h; exact absurd rfl h
  | cons a t ih =>
    intro _
    cases t with
    | nil => simp [argmax]
    | cons b t2 =>
      rw [argmax]
      by_cases h : listMax (b :: t2) ≤ a
      · simp [h]
      · simp only [if_neg h, List.length_cons]
        exact Nat.succ_lt_succ (ih (by simp))

theorem getD_argmin : ∀ {l : List ℚ}, l ≠ [] → l.getD (argmin l) 0 = listMin l := by
  intro l
  induction l with
  | nil => intro h; exact absurd rfl h
  | cons a t ih =>
    intro _
    cases t with
    | nil => simp [argmin, listMin]
    | cons b t2 =>
      rw [argmin, listMin]
      by_cases h : a ≤ listMin (b :: t2)
      · simp [h, min_eq_left h]
      · rw [if_neg h, List.getD_cons_succ, ih (by simp),
          min_eq_right (le_of_lt (lt_of_not_le h))]

theorem getD_argmax : ∀ {l : List ℚ}, l ≠ [] → l.getD (argmax l) 0 = listMax l := by
  intro l
  induction l with
  | nil => intro h; exact absurd rfl h
  | cons a t ih =>
    intro _
    cases t with
    | nil => simp [argmax, listMax]
    | cons b t2 =>
      rw [argmax, listMax]
      by_cases h : listMax (b :: t2) ≤ a
      · simp [h, max_eq_left h]
      · rw [if_neg h, List.getD_cons_succ, ih (by simp),
          max_eq_right (le_of_lt (lt_of_not_le h))]

theorem argmin_first :
    ∀ {l : List ℚ}, ∀ j < argmin l, listMin l < l.getD j 0 := by
  intro l
  induction l with
  | nil => intro j hj; simp [argmin] at hj
  | cons a t ih =>
    intro j hj
    cases t with
    | nil => simp [argmin] at hj
    | cons b t2 =>
      rw [argmin] at hj
      by_cases h : a ≤ listMin (b :: t2)
      · rw [if_pos h] at hj; cases hj
      · rw [if_neg h] at hj
        have hm : listMin (a :: b :: t2) = listMin (b :: t2) := by
          rw [listMin, min_eq_right (le_of_lt (lt_of_not_le h))]
        cases j with
        | zero =>
          rw [hm, List.getD_cons_zero]
          exact lt_of_not_le h
        | succ j2 =>
          rw [hm, List.getD_cons_succ]
          exact ih j2 (Nat.lt_of_succ_lt_succ hj)

theorem argmax_first :
    ∀ {l : List ℚ}, ∀ j < argmax l, l.getD j 0 < listMax l := by
  intro l
  induction l with
  | nil => intro j hj; simp [argmax] at hj
  | cons a t ih =>
    intro j hj
    cases t with
    | nil => simp [argmax] at hj
    | cons b t2 =>
      rw [argmax] at hj
      by_cases h : listMax (b :: t2) ≤ a
      · rw [if_pos h] at hj; cases hj
      · rw [if_neg h] at hj
        have hm : listMax (a :: b :: t2) = listMax (b :: t2) := by
          rw [listMax, max_eq_right (le_of_lt (lt_of_not_le h))]
        cases j with
        | zero =>
          rw [hm, List.getD_cons_zero]
          exact lt_of_not_le h
        | succ j2 =>
          rw [hm, List.getD_cons_succ]
          exact ih j2 (Nat.lt_of_succ_lt_succ hj)

theorem getD_mem : ∀ {l : List ℚ} {n : ℕ}, n < l.length → l.getD n 0 ∈ l := by
  intro l
  induction l with
  | nil => intro n hn; simp at hn
  | cons a t ih =>
    intro n hn
    cases n with
    | zero => simp
    | succ m =>
      rw [List.getD_cons_succ]
      exact List.mem_cons_of_mem _ (ih (Nat.lt_of_succ_lt_succ hn))

theorem linspace_length (a b : ℚ) (n : ℕ) : (linspace a b n).length = n := by
  simp [linspace]

theorem linspace_getD {a b : ℚ} {n i : ℕ} (h : i < n) :
    (linspace a b n).getD i 0 = a + (i : ℚ) * (b - a) / ((n : ℚ) - 1) := by
  unfold linspace
  rw [List.getD_eq_getElem?_getD, List.getElem?_map, List.getElem?_range h]
  rfl

theorem linspace_getD_mono {a b : ℚ} {n i j : ℕ}
    (hab : a ≤ b) (hij : i ≤ j) (hj : j < n) :
    (linspace a b n).getD i 0 ≤ (linspace a b n).getD j 0 := by
  rw [linspace_getD (lt_of_le_of_lt hij hj), linspace_getD hj]
  have h1 : (i : ℚ) * (b - a) ≤ (j : ℚ) * (b - a) :=
    mul_le_mul_of_nonneg_right (by exact_mod_cast hij) (by linarith)
  have hn : (0 : ℚ) ≤ (n : ℚ) - 1 := by
    have h2 : 1 ≤ n := by omega
    have h3 : (1 : ℚ) ≤ (n : ℚ) := by exact_mod_cast h2
    linarith
  rcases hn.eq_or_lt with h0 | hpos
  · rw [← h0, div_zero, div_zero]
  · have h4 : (i : ℚ) * (b - a) / ((n : ℚ) - 1) ≤ (j : ℚ) * (b - a) / ((n : ℚ) - 1) :=
      (div_le_div_iff_of_pos_right hpos).mpr h1
    linarith

theorem linspace_getD_strict {a b : ℚ} {n i j : ℕ}
    (hab : a < b) (hij : i < j) (hj : j < n) :
    (linspace a b n).getD i 0 < (linspace a b n).getD j 0 := by
  rw [linspace_getD (lt_trans hij hj), linspace_getD hj]
  have hn2 : 2 ≤ n := by omega
  have hpos : (0 : ℚ) < (n : ℚ) - 1 := by
    have h3 : (2 : ℚ) ≤ (n : ℚ) := by exact_mod_cast hn2
    linarith
  have h1 : (i : ℚ) * (b - a) < (j : ℚ) * (b - a) :=
    mul_lt_mul_of_pos_right (by exact_mod_cast hij) (by linarith)
  have h4 : (i : ℚ) * (b - a) / ((n : ℚ) - 1) < (j : ℚ) * (b - a) / ((n : ℚ) - 1) :=
    (div_lt_div_iff_of_pos_right hpos).mpr h1
  linarith

theorem linspace_getD_bounds {a b : ℚ} {n i : ℕ}
    (hab : a ≤ b) (hi : i < n) :
    a ≤ (linspace a b n).getD i 0 ∧ (linspace a b n).getD i 0 ≤ b := by
  rw [linspace_getD hi]
  by_cases h1 : n = 1
  · subst h1
    have h0 : i = 0 := by omega
    subst h0
    simp
    exact hab
  · have hn2 : 2 ≤ n := by omega
    have hpos : (0 : ℚ) < (n : ℚ) - 1 := by
      have h3 : (2 : ℚ) ≤ (n : ℚ) := by exact_mod_cast hn2
      linarith
    have hibound : (i : ℚ) ≤ (n : ℚ) - 1 := by
      have h4 : i ≤ n - 1 := by omega
      have h5 : (i : ℚ) ≤ ((n - 1 : ℕ) : ℚ) := by exact_mod_cast h4
      rw [Nat.cast_sub (by omega)] at h5
      simpa using h5
    constructor
    · have h6 : 0 ≤ (i : ℚ) * (b - a) / ((n : ℚ) - 1) :=
        div_nonneg (mul_nonneg (Nat.cast_nonneg i) (by linarith)) (le_of_lt hpos)
      linarith
    · have hle : (i : ℚ) * (b - a) ≤ ((n : ℚ) - 1) * (b - a) :=
        mul_le_mul_of_nonneg_right hibound (by linarith)
      have h7 : (i : ℚ) * (b - a) / ((n : ℚ) - 1) ≤ b - a := by
        rw [div_le_iff₀ hpos]
        linarith
      linarith

/-- State grid of osher_solution: qv = linspace(q_min, q_max, 1000). -/
def qv (q_left q_right : ℚ) : List ℚ :=
  linspace (min q_left q_right) (max q_left q_right) 1000

/-- Objective f(q) - xi*q scanned by the argmin/argmax for one query xi. -/
def osherObj (f : ℚ → ℚ) (xi q : ℚ) : ℚ := f q - xi * q

/-- Vector of objective values f(qv) - xi*qv over the state grid. -/
def objList (f : ℚ → ℚ) (q_left q_right xi : ℚ) : List ℚ :=
  (qv q_left q_right).map (osherObj f xi)

/-- Index selected for one query: argmin branch when q_left ≤ q_right,
argmax branch otherwise, exactly as the two qtilde variants in the source. -/
def osherIdx (f : ℚ → ℚ) (q_left q_right xi : ℚ) : ℕ :=
  if q_left ≤ q_right then argmin (objList f q_left q_right xi)
  else argmax (objList f q_left q_right xi)

/-- Pointwise similarity solution: Q(xi) = qv[argmin/argmax(f(qv) - xi*qv)]. -/
def qtilde (f : ℚ → ℚ) (q_left q_right xi : ℚ) : ℚ :=
  (qv q_left q_right).getD (osherIdx f q_left q_right xi) 0

/-- Evaluator returned by osher_solution, applied to a sequence of queries
(the loop filling Q[j] for each xi[j]). -/
def osher_solution (f : ℚ → ℚ) (q_left q_right : ℚ) (xi : List ℚ) : List ℚ :=
  xi.map (qtilde f q_left q_right)

theorem getD_map (g : ℚ → ℚ) (l : List ℚ) {i : ℕ} (h : i < l.length) :
    (l.map g).getD i 0 = g (l.getD i 0) := by
  rw [List.getD_eq_getElem?_getD, List.getElem?_map, List.getElem?_eq_getElem h,
    List.getD_eq_getElem?_getD, List.getElem?_eq_getElem h]
  rfl

theorem qv_length (q_left q_right : ℚ) : (qv q_left q_right).length = 1000 := by
  rw [qv, linspace_length]

theorem objList_length (f : ℚ → ℚ) (q_left q_right xi : ℚ) :
    (objList f q_left q_right xi).length = 1000 := by
  rw [objList, List.length_map, qv_length]

theorem objList_ne_nil (f : ℚ → ℚ) (q_left q_right xi : ℚ) :
    objList f q_left q_right xi ≠ [] := by
  intro h
  have hl := objList_length f q_left q_right xi
  rw [h] at hl
  simp at hl

theorem objList_getD (f : ℚ → ℚ) (q_left q_right xi : ℚ) {i : ℕ} (h : i < 1000) :
    (objList f q_left q_right xi).getD i 0 =
      osherObj f xi ((qv q_left q_right).getD i 0) := by
  rw [objList]
  exact getD_map _ _ (by rw [qv_length]; exact h)

theorem osherIdx_lt (f : ℚ → ℚ) (q_left q_right xi : ℚ) :
    osherIdx f q_left q_right xi < 1000 := by
  rw [osherIdx]
  by_cases h : q_left ≤ q_right
  · rw [if_pos h]
    have := argmin_lt_length (objList_ne_nil f q_left q_right xi)
    rwa [objList_length] at this
  · rw [if_neg h]
    have := argmax_lt_length (objList_ne_nil f q_left q_right xi)
    rwa [objList_length] at this

theorem qtilde_mem (f : ℚ → ℚ) (q_left q_right xi : ℚ) :
    qtilde f q_left q_right xi ∈ qv q_left q_right := by
  rw [qtilde]
  exact getD_mem (by rw [qv_length]; exact osherIdx_lt f q_left q_right xi)

theorem qv_getD_const (c : ℚ) {i : ℕ} (h : i < 1000) :
    (qv c c).getD i 0 = c := by
  rw [qv, min_self, max_self, linspace_getD h]
  simp

/-- Shared helper: with equal states the grid is the repeated point q_left and
every query returns that point. -/
theorem qtilde_const (f : ℚ → ℚ) (c xi : ℚ) : qtilde f c c xi = c := by
  rw [qtilde]
  exact qv_getD_const c (osherIdx_lt f c c xi)

/-- Midpoint list 0.5*(qv[:-1] + qv[1:]) used for the characteristic trace. -/
def qv_mid (q_left q_right : ℚ) : List ℚ :=
  (List.range 999).map (fun i : ℕ =>
    ((qv q_left q_right).getD i 0 + (qv q_left q_right).getD (i + 1) 0) / 2)

/-- Finite-difference characteristic speeds diff(f(qv)) / (qv[1] - qv[0]). -/
def dfdq (f : ℚ → ℚ) (q_left q_right : ℚ) : List ℚ :=
  (List.range 999).map (fun i : ℕ =>
    (f ((qv q_left q_right).getD (i + 1) 0) - f ((qv q_left q_right).getD i 0)) /
      ((qv q_left q_right).getD 1 0 - (qv q_left q_right).getD 0 0))

def dfdq_min (f : ℚ → ℚ) (q_left q_right : ℚ) : ℚ := listMin (dfdq f q_left q_right)

def dfdq_max (f : ℚ → ℚ) (q_left q_right : ℚ) : ℚ := listMax (dfdq f q_left q_right)

def dfdq_range (f : ℚ → ℚ) (q_left q_right : ℚ) : ℚ :=
  dfdq_max f q_left q_right - dfdq_min f q_left q_right

/-- Default bound assigned by the line xi_left = min(0,dfdq_min) - 0.1*dfdq_range
of nonconvex_solutions (0.1 is exact as 1/10 in the rational model). -/
def default_xi_left (f : ℚ → ℚ) (q_left q_right : ℚ) : ℚ :=
  min 0 (dfdq_min f q_left q_right) - (1 / 10) * dfdq_range f q_left q_right

/-- Default bound assigned by the line xi_right = max(0,dfdq_max) + 0.1*dfdq_range
of nonconvex_solutions. -/
def default_xi_right (f : ℚ → ℚ) (q_left q_right : ℚ) : ℚ :=
  max 0 (dfdq_max f q_left q_right) + (1 / 10) * dfdq_range f q_left q_right

/-- Characteristic-trace ordinates: hstack((q_min, midpoints, q_max)). -/
def q_char (q_left q_right : ℚ) : List ℚ :=
  min q_left q_right :: (qv_mid q_left q_right ++ [max q_left q_right])

/-- Characteristic-trace abscissas: hstack((xi_min, dfdq, xi_max)), where the
padding pair is (xi_left, xi_right) for q_left ≤ q_right and swapped otherwise. -/
def xi_char (f : ℚ → ℚ) (q_left q_right xi_left xi_right : ℚ) : List ℚ :=
  (if q_left ≤ q_right then xi_left else xi_right) ::
    (dfdq f q_left q_right ++ [if q_left ≤ q_right then xi_right else xi_left])

/-- Embedding of nonconvex_solutions.  In the source the statement
xi = linspace(xi_left, xi_right, 1000) runs before the block that substitutes
default bounds for None, so a missing bound reaches numpy.linspace as None and
raises TypeError there; that crash is modelled as none.  When both bounds are
given the function returns the bundle (xi, q, q_char, xi_char). -/
def nonconvex_solutions (f : ℚ → ℚ) (q_left q_right : ℚ)
    (xi_left xi_right : Option ℚ) :
    Option (List ℚ × List ℚ × List ℚ × List ℚ) :=
  match xi_left, xi_right with
  | some xl, some xr =>
      some (linspace xl xr 1000,
        osher_solution f q_left q_right (linspace xl xr 1000),
        q_char q_left q_right, xi_char f q_left q_right xl xr)
  | _, _ => none

theorem listMin_le_listMax {l : List ℚ} (h : l ≠ []) : listMin l ≤ listMax l := by
  cases l with
  | nil => exact absurd rfl h
  | cons a t =>
    exact le_trans (listMin_le a (List.mem_cons_self a t)) (le_listMax a (List.mem_cons_self a t))

theorem qv_const_replicate (c : ℚ) : qv c c = List.replicate 1000 c := by
  apply List.eq_replicate_iff.mpr
  refine ⟨qv_length c c, ?_⟩
  intro b hb
  rw [qv, min_self, max_self, linspace] at hb
  obtain ⟨i, _, rfl⟩ := List.mem_map.mp hb
  simp

/-- C3: for every flux, every pair of states and every query, the value
returned by the evaluator lies in [min(q_left,q_right), max(q_left,q_right)]. -/
theorem qtilde_range_invariant (f : ℚ → ℚ) (q_left q_right xi : ℚ) :
    min q_left q_right ≤ qtilde f q_left q_right xi ∧
      qtilde f q_left q_right xi ≤ max q_left q_right := by
  have h := linspace_getD_bounds (a := min q_left q_right) (b := max q_left q_right)
    (n := 1000) (i := osherIdx f q_left q_right xi)
    min_le_max (osherIdx_lt f q_left q_right xi)
  rw [qtilde, qv]
  exact h

/-- C5: in the degenerate case q_left = q_right = c the evaluator returned by
osher_solution is the constant function: Q(xi) = c for every query xi. -/
theorem osher_degenerate_constant (f : ℚ → ℚ) (c xi : ℚ) :
    qtilde f c c xi = c :=
  qtilde_const f c xi

/-- C1: the evaluator always returns a point of the state grid; for
q_left ≤ q_right that point minimises f(q) - xi*q over the grid, and for
q_right < q_left it maximises f(q) - xi*q over the grid. -/
theorem osher_extremal (f : ℚ → ℚ) (q_left q_right xi : ℚ) :
    qtilde f q_left q_right xi ∈ qv q_left q_right ∧
      (if q_left ≤ q_right then
        ∀ p ∈ qv q_left q_right,
          f (qtilde f q_left q_right xi) - xi * qtilde f q_left q_right xi ≤
            f p - xi * p
      else
        ∀ p ∈ qv q_left q_right,
          f p - xi * p ≤
            f (qtilde f q_left q_right xi) - xi * qtilde f q_left q_right xi) := by
  refine ⟨qtilde_mem f q_left q_right xi, ?_⟩
  by_cases h : q_left ≤ q_right
  · rw [if_pos h]
    intro p hp
    have hmem : osherObj f xi p ∈ objList f q_left q_right xi :=
      List.mem_map_of_mem _ hp
    have hidx : osherIdx f q_left q_right xi = argmin (objList f q_left q_right xi) := by
      rw [osherIdx, if_pos h]
    have hlt : argmin (objList f q_left q_right xi) < 1000 := by
      rw [← hidx]; exact osherIdx_lt f q_left q_right xi
    have hval : osherObj f xi (qtilde f q_left q_right xi) =
        listMin (objList f q_left q_right xi) := by
      rw [qtilde, hidx, ← objList_getD f q_left q_right xi hlt]
      exact getD_argmin (objList_ne_nil f q_left q_right xi)
    have hle := listMin_le (osherObj f xi p) hmem
    rw [← hval] at hle
    simpa [osherObj] using hle
  · rw [if_neg h]
    intro p hp
    have hmem : osherObj f xi p ∈ objList f q_left q_right xi :=
      List.mem_map_of_mem _ hp
    have hidx : osherIdx f q_left q_right xi = argmax (objList f q_left q_right xi) := by
      rw [osherIdx, if_neg h]
    have hlt : argmax (objList f q_left q_right xi) < 1000 := by
      rw [← hidx]; exact osherIdx_lt f q_left q_right xi
    have hval : osherObj f xi (qtilde f q_left q_right xi) =
        listMax (objList f q_left q_right xi) := by
      rw [qtilde, hidx, ← objList_getD f q_left q_right xi hlt]
      exact getD_argmax (objList_ne_nil f q_left q_right xi)
    have hle := le_listMax (osherObj f xi p) hmem
    rw [← hval] at hle
    simpa [osherObj] using hle

/-- C6: the selected index is the least grid index attaining the extremal
value of f(q) - xi*q, so ties are broken toward the first point in grid order
(the lowest q) in both the argmin and the argmax branch. -/
theorem osher_tiebreak_first (f : ℚ → ℚ) (q_left q_right xi : ℚ) :
    osherIdx f q_left q_right xi =
      sInf {j : ℕ | j < 1000 ∧ (objList f q_left q_right xi).getD j 0 =
        (if q_left ≤ q_right then listMin (objList f q_left q_right xi)
         else listMax (objList f q_left q_right xi))} := by
  have hne := objList_ne_nil f q_left q_right xi
  have hlen := objList_length f q_left q_right xi
  by_cases h : q_left ≤ q_right
  · rw [osherIdx]
    simp only [if_pos h]
    have hmem : argmin (objList f q_left q_right xi) ∈
        {j : ℕ | j < 1000 ∧ (objList f q_left q_right xi).getD j 0 =
          listMin (objList f q_left q_right xi)} :=
      ⟨by rw [← hlen]; exact argmin_lt_length hne, getD_argmin hne⟩
    refine le_antisymm (le_csInf ⟨_, hmem⟩ ?_) (Nat.sInf_le hmem)
    intro j hj
    by_contra hcon
    push_neg at hcon
    have hfirst := argmin_first j hcon
    rw [hj.2] at hfirst
    exact lt_irrefl _ hfirst
  · rw [osherIdx]
    simp only [if_neg h]
    have hmem : argmax (objList f q_left q_right xi) ∈
        {j : ℕ | j < 1000 ∧ (objList f q_left q_right xi).getD j 0 =
          listMax (objList f q_left q_right xi)} :=
      ⟨by rw [← hlen]; exact argmax_lt_length hne, getD_argmax hne⟩
    refine le_antisymm (le_csInf ⟨_, hmem⟩ ?_) (Nat.sInf_le hmem)
    intro j hj
    by_contra hcon
    push_neg at hcon
    have hfirst := argmax_first j hcon
    rw [hj.2] at hfirst
    exact lt_irrefl _ hfirst

theorem argmin_cross (xi1 xi2 Q1 Q2 v1 v2 : ℚ) (hxi : xi1 < xi2) (hq : Q2 < Q1)
    (hB : v1 - xi1 * Q1 < v2 - xi1 * Q2) (hC : v2 - xi2 * Q2 ≤ v1 - xi2 * Q1) :
    False := by
  nlinarith [mul_pos (sub_pos.mpr hxi) (sub_pos.mpr hq)]

theorem argmax_cross (xi1 xi2 Q1 Q2 v1 v2 : ℚ) (hxi : xi1 < xi2) (hq : Q1 < Q2)
    (hB : v1 - xi2 * Q1 < v2 - xi2 * Q2) (hC : v2 - xi1 * Q2 ≤ v1 - xi1 * Q1) :
    False := by
  nlinarith [mul_pos (sub_pos.mpr hxi) (sub_pos.mpr hq)]

/-- C10: for a fixed flux the evaluator is monotone in the query xi:
non-decreasing when q_left ≤ q_right and non-increasing when q_right < q_left,
for arbitrary (also nonconvex) flux. -/
theorem osher_monotone (f : ℚ → ℚ) (q_left q_right xi1 xi2 : ℚ) (h : xi1 < xi2) :
    if q_left ≤ q_right then
      qtilde f q_left q_right xi1 ≤ qtilde f q_left q_right xi2
    else
      qtilde f q_left q_right xi2 ≤ qtilde f q_left q_right xi1 := by
  by_cases hq : q_left ≤ q_right
  · rw [if_pos hq]
    rcases eq_or_lt_of_le hq with heq | hlt
    · subst heq
      rw [qtilde_const, qtilde_const]
    · have hab : min q_left q_right < max q_left q_right := by
        rw [min_eq_left hq, max_eq_right hq]; exact hlt
      have hi1 : osherIdx f q_left q_right xi1 = argmin (objList f q_left q_right xi1) := by
        rw [osherIdx, if_pos hq]
      have hi2 : osherIdx f q_left q_right xi2 = argmin (objList f q_left q_right xi2) := by
        rw [osherIdx, if_pos hq]
      have hlt1 : osherIdx f q_left q_right xi1 < 1000 := osherIdx_lt f q_left q_right xi1
      have hlt2 : osherIdx f q_left q_right xi2 < 1000 := osherIdx_lt f q_left q_right xi2
      have hidxle : osherIdx f q_left q_right xi1 ≤ osherIdx f q_left q_right xi2 := by
        by_contra hcon
        push_neg at hcon
        have hq2q1 : (qv q_left q_right).getD (osherIdx f q_left q_right xi2) 0 <
            (qv q_left q_right).getD (osherIdx f q_left q_right xi1) 0 := by
          rw [qv]
          exact linspace_getD_strict hab hcon hlt1
        have hB := argmin_first (l := objList f q_left q_right xi1)
          (osherIdx f q_left q_right xi2) (hi1 ▸ hcon)
        rw [objList_getD f q_left q_right xi1 hlt2] at hB
        have hv1 : listMin (objList f q_left q_right xi1) =
            osherObj f xi1 ((qv q_left q_right).getD (osherIdx f q_left q_right xi1) 0) := by
          rw [← objList_getD f q_left q_right xi1 hlt1, hi1]
          exact (getD_argmin (objList_ne_nil f q_left q_right xi1)).symm
        rw [hv1] at hB
        have hC : osherObj f xi2 ((qv q_left q_right).getD (osherIdx f q_left q_right xi2) 0) ≤
            osherObj f xi2 ((qv q_left q_right).getD (osherIdx f q_left q_right xi1) 0) := by
          have hmem : osherObj f xi2 ((qv q_left q_right).getD (osherIdx f q_left q_right xi1) 0) ∈
              objList f q_left q_right xi2 :=
            List.mem_map_of_mem _ (getD_mem (by rw [qv_length]; exact hlt1))
          have hmin := listMin_le _ hmem
          have hv2 : osherObj f xi2 ((qv q_left q_right).getD (osherIdx f q_left q_right xi2) 0) =
              listMin (objList f q_left q_right xi2) := by
            rw [← objList_getD f q_left q_right xi2 hlt2, hi2]
            exact getD_argmin (objList_ne_nil f q_left q_right xi2)
          rw [hv2]
          exact hmin
        simp only [osherObj] at hB hC
        exact argmin_cross xi1 xi2 _ _ _ _ h hq2q1 hB hC
      have hmono := linspace_getD_mono (a := min q_left q_right) (b := max q_left q_right)
        (n := 1000) min_le_max hidxle hlt2
      rw [qtilde, qtilde, qv]
      exact hmono
  · rw [if_neg hq]
    have hrl : q_right < q_left := lt_of_not_le hq
    have hab : min q_left q_right < max q_left q_right := by
      rw [min_eq_right (le_of_lt hrl), max_eq_left (le_of_lt hrl)]
      exact hrl
    have hi1 : osherIdx f q_left q_right xi1 = argmax (objList f q_left q_right xi1) := by
      rw [osherIdx, if_neg hq]
    have hi2 : osherIdx f q_left q_right xi2 = argmax (objList f q_left q_right xi2) := by
      rw [osherIdx, if_neg hq]
    have hlt1 : osherIdx f q_left q_right xi1 < 1000 := osherIdx_lt f q_left q_right xi1
    have hlt2 : osherIdx f q_left q_right xi2 < 1000 := osherIdx_lt f q_left q_right xi2
    have hidxle : osherIdx f q_left q_right xi2 ≤ osherIdx f q_left q_right xi1 := by
      by_contra hcon
      push_neg at hcon
      have hq1q2 : (qv q_left q_right).getD (osherIdx f q_left q_right xi1) 0 <
          (qv q_left q_right).getD (osherIdx f q_left q_right xi2) 0 := by
        rw [qv]
        exact linspace_getD_strict hab hcon hlt2
      have hB := argmax_first (l := objList f q_left q_right xi2)
        (osherIdx f q_left q_right xi1) (hi2 ▸ hcon)
      rw [objList_getD f q_left q_right xi2 hlt1] at hB
      have hv2 : listMax (objList f q_left q_right xi2) =
          osherObj f xi2 ((qv q_left q_right).getD (osherIdx f q_left q_right xi2) 0) := by
        rw [← objList_getD f q_left q_right xi2 hlt2, hi2]
        exact (getD_argmax (objList_ne_nil f q_left q_right xi2)).symm
      rw [hv2] at hB
      have hC : osherObj f xi1 ((qv q_left q_right).getD (osherIdx f q_left q_right xi2) 0) ≤
          osherObj f xi1 ((qv q_left q_right).getD (osherIdx f q_left q_right xi1) 0) := by
        have hmem : osherObj f xi1 ((qv q_left q_right).getD (osherIdx f q_left q_right xi2) 0) ∈
            objList f q_left q_right xi1 :=
          List.mem_map_of_mem _ (getD_mem (by rw [qv_length]; exact hlt2))
        have hmax := le_listMax _ hmem
        have hv1 : listMax (objList f q_left q_right xi1) =
            osherObj f xi1 ((qv q_left q_right).getD (osherIdx f q_left q_right xi1) 0) := by
          rw [← objList_getD f q_left q_right xi1 hlt1, hi1]
          exact (getD_argmax (objList_ne_nil f q_left q_right xi1)).symm
        rw [hv1] at hmax
        exact hmax
      simp only [osherObj] at hB hC
      exact argmax_cross xi1 xi2 _ _ _ _ h hq1q2 hB hC
    have hmono := linspace_getD_mono (a := min q_left q_right) (b := max q_left q_right)
      (n := 1000) min_le_max hidxle hlt1
    rw [qtilde, qtilde, qv]
    exact hmono

/-- Witness for the monotonicity theorem at the flux q*q, states 0 and 1 and
the ordered queries 0 < 1. -/
theorem osher_monotone_witness :
    if (0:ℚ) ≤ 1 then
      qtilde (fun q => q * q) 0 1 0 ≤ qtilde (fun q => q * q) 0 1 1
    else
      qtilde (fun q => q * q) 0 1 1 ≤ qtilde (fun q => q * q) 0 1 0 :=
  osher_monotone (fun q => q * q) 0 1 0 1 (by norm_num)

theorem dfdq_length (f : ℚ → ℚ) (q_left q_right : ℚ) :
    (dfdq f q_left q_right).length = 999 := by
  simp [dfdq]

theorem dfdq_ne_nil (f : ℚ → ℚ) (q_left q_right : ℚ) : dfdq f q_left q_right ≠ [] := by
  intro h
  have hl := dfdq_length f q_left q_right
  rw [h] at hl
  simp at hl

/-- C7: the derived default bounds follow the stated formulas over the 999
forward finite differences of the flux, and consequently bracket xi = 0. -/
theorem default_xi_bounds (f : ℚ → ℚ) (q_left q_right : ℚ) :
    (dfdq f q_left q_right).length = 999 ∧
    default_xi_left f q_left q_right =
      min 0 (dfdq_min f q_left q_right) -
        (1 / 10) * (dfdq_max f q_left q_right - dfdq_min f q_left q_right) ∧
    default_xi_right f q_left q_right =
      max 0 (dfdq_max f q_left q_right) +
        (1 / 10) * (dfdq_max f q_left q_right - dfdq_min f q_left q_right) ∧
    default_xi_left f q_left q_right ≤ 0 ∧ 0 ≤ default_xi_right f q_left q_right := by
  have hmm : dfdq_min f q_left q_right ≤ dfdq_max f q_left q_right :=
    listMin_le_listMax (dfdq_ne_nil f q_left q_right)
  have h10 : (0:ℚ) ≤ (1 / 10) * (dfdq_max f q_left q_right - dfdq_min f q_left q_right) :=
    mul_nonneg (by norm_num) (by linarith)
  refine ⟨dfdq_length f q_left q_right, rfl, rfl, ?_, ?_⟩
  · have hminle : min (0:ℚ) (dfdq_min f q_left q_right) ≤ 0 := min_le_left _ _
    rw [default_xi_left, dfdq_range]
    linarith
  · have hmaxle : (0:ℚ) ≤ max 0 (dfdq_max f q_left q_right) := le_max_left _ _
    rw [default_xi_right, dfdq_range]
    linarith

/-- C8: the trace bundle returned for explicit bounds: q_char is the midpoint
sequence with q_min prepended and q_max appended, xi_char is the
finite-difference speed sequence padded by the domain bounds (swapped when
q_left > q_right), and the two have the equal length N + 1 = 1001. -/
theorem characteristic_trace_structure (f : ℚ → ℚ) (q_left q_right xl xr : ℚ) :
    nonconvex_solutions f q_left q_right (some xl) (some xr) =
      some (linspace xl xr 1000,
        osher_solution f q_left q_right (linspace xl xr 1000),
        q_char q_left q_right, xi_char f q_left q_right xl xr) ∧
    q_char q_left q_right =
      min q_left q_right :: (qv_mid q_left q_right ++ [max q_left q_right]) ∧
    xi_char f q_left q_right xl xr =
      (if q_left ≤ q_right then xl else xr) ::
        (dfdq f q_left q_right ++ [if q_left ≤ q_right then xr else xl]) ∧
    (q_char q_left q_right).length = (qv q_left q_right).length + 1 ∧
    (xi_char f q_left q_right xl xr).length = (q_char q_left q_right).length := by
  refine ⟨rfl, rfl, rfl, ?_, ?_⟩
  · simp [q_char, qv_mid, qv_length]
  · simp [q_char, xi_char, qv_mid, dfdq]

/-- C9: the computation is referentially transparent: identical inputs give
identical outputs, both for the evaluator alone and for a full solve. -/
theorem solver_deterministic (f g : ℚ → ℚ) (q_left q_right ql2 qr2 : ℚ)
    (xis xis2 : List ℚ) (xl xr xl2 xr2 : Option ℚ)
    (hf : f = g) (h1 : q_left = ql2) (h2 : q_right = qr2) (h3 : xis = xis2)
    (h4 : xl = xl2) (h5 : xr = xr2) :
    osher_solution f q_left q_right xis = osher_solution g ql2 qr2 xis2 ∧
    nonconvex_solutions f q_left q_right xl xr =
      nonconvex_solutions g ql2 qr2 xl2 xr2 := by
  subst hf; subst h1; subst h2; subst h3; subst h4; subst h5
  exact ⟨rfl, rfl⟩

/-- Witness for the determinism theorem: two syntactically identical solves. -/
theorem solver_deterministic_witness :
    osher_solution (fun q => q * q) 0 1 [0, 1] =
      osher_solution (fun q => q * q) 0 1 [0, 1] ∧
    nonconvex_solutions (fun q => q * q) 0 1 (some 0) (some 1) =
      nonconvex_solutions (fun q => q * q) 0 1 (some 0) (some 1) :=
  solver_deterministic (fun q => q * q) (fun q => q * q) 0 1 0 1 [0, 1] [0, 1]
    (some 0) (some 1) (some 0) (some 1) rfl rfl rfl rfl rfl rfl

/-- C2: with the xi bounds omitted the solve crashes instead of deriving the
default bounds: in the source the line xi = linspace(xi_left, xi_right, 1000)
runs before the block substituting defaults for None, so numpy.linspace
receives None and raises TypeError (modelled as none). -/
theorem nonconvex_solutions_omitted_bounds_crash :
    nonconvex_solutions (fun q => q * q) 0 1 none none = none := rfl

/-- C4 counterexample: solving with q_left = q_right = 0 signals no error; the
solve silently builds the zero-width grid of 1000 copies of 0 and the
evaluator returns the constant 0, here at the query 7. -/
theorem degenerate_solve_returns_value :
    qv 0 0 = List.replicate 1000 0 ∧ qtilde (fun q => q) 0 0 7 = 0 :=
  ⟨qv_const_replicate 0, qtilde_const (fun q => q) 0 7⟩

/-- C4 amended: with q_left = q_right = c no error is signalled at solve time;
osher_solution silently produces the zero-width grid (1000 copies of c) and
the constant evaluator Q(xi) = c. -/
theorem degenerate_solve_silent_constant (f : ℚ → ℚ) (c xi : ℚ) :
    qv c c = List.replicate 1000 c ∧ qtilde f c c xi = c :=
  ⟨qv_const_replicate c, qtilde_const f c xi⟩

end NonconvexScalar
